import Mathlib

/-!
Verification of the core of `sbte-formatter` (`src/core/main.ts`):
the CSV pre-processing step of `parseCsv`, the pivot aggregator
`formatData`, and the course-universe helper `getAllCourses`.

The source is TypeScript running on dynamically typed values produced by
a CSV parser with `dynamicTyping: true`, so cell values can be numbers,
strings, booleans, `null` or `undefined`.  We embed such values as
`JsPrim` (numbers are modelled as integers: every field the program
compares or groups by is integral in the data model, and no arithmetic is
performed).  Strict equality `===` on these primitives is structural
equality of `JsPrim`; JavaScript object string keys are modelled as an
insertion-ordered association list (exact for the non-numeric course
codes of the data model, e.g. "2001-MATHS").
-/

/-- A JavaScript primitive value as produced by `Papa.parse` with
`dynamicTyping: true`. -/
inductive JsPrim where
  | num (n : Int)
  | str (s : String)
  | bool (b : Bool)
  | null
  | undef
deriving DecidableEq, Repr

/-- JavaScript truthiness of a primitive (`item.grade ? _ : _`). -/
def jsTruthy : JsPrim → Bool
  | .num n => n != 0
  | .str s => s ≠ ""
  | .bool b => b
  | .null => false
  | .undef => false

/-- JavaScript conversion of a primitive to an object property key
(`grades[item.course] = ...` coerces `item.course` to a string). -/
def jsToKey : JsPrim → String
  | .num n => toString n
  | .str s => s
  | .bool b => if b then "true" else "false"
  | .null => "null"
  | .undef => "undefined"

/-- One parsed CSV row (`interface ResultType` in `main.ts`).  The
interface declares enum-typed fields, but values arrive from dynamic
typing, so every field is a `JsPrim`; well-typedness is stated as a
hypothesis where a claim needs it. -/
structure ResultType where
  registerNo : JsPrim
  studentName : JsPrim
  branch : JsPrim
  semester : JsPrim
  course : JsPrim
  examType : JsPrim
  attendance : JsPrim
  withheld : JsPrim
  iMark : JsPrim
  grade : JsPrim
  result : JsPrim
deriving DecidableEq, Repr

/-- One pivoted output record (`interface FormattedType` in `main.ts`).
The `grades` object is an insertion-ordered association list from course
key to outcome value. -/
structure FormattedType where
  registerNo : JsPrim
  studentName : JsPrim
  branch : JsPrim
  semester : JsPrim
  examType : JsPrim
  grades : List (String × JsPrim)
  withheld : JsPrim
deriving DecidableEq, Repr

/-- JavaScript object update `m[k] = v`: overwrite in place if the key is
present (keeping its position), otherwise append at the end. -/
def setKey : List (String × JsPrim) → String → JsPrim → List (String × JsPrim)
  | [], k, v => [(k, v)]
  | (k', v') :: rest, k, v =>
      if k' = k then (k, v) :: rest else (k', v') :: setKey rest k v

/-- JavaScript object read `m[k]` (`none` for an absent key). -/
def lookupKey : List (String × JsPrim) → String → Option JsPrim
  | [], _ => none
  | (k', v') :: rest, k => if k' = k then some v' else lookupKey rest k

/-- The outcome seeded for the very first row of a student
(`main.ts` lines 99–109): `item.grade ? item.grade : item.attendance ===
"Absent" ? "Absent" : item.withheld === "With held for Malpractice" ?
Grade.F : item.withheld === "Withheld" ? "Withheld" : null`. -/
def deriveOutcome (item : ResultType) : JsPrim :=
  if jsTruthy item.grade then item.grade
  else if item.attendance = JsPrim.str "Absent" then JsPrim.str "Absent"
  else if item.withheld = JsPrim.str "With held for Malpractice" then JsPrim.str "F"
  else if item.withheld = JsPrim.str "Withheld" then JsPrim.str "Withheld"
  else JsPrim.null

/-- The record pushed for a first-seen `registerNo`
(`main.ts` lines 93–111). -/
def mkNewRecord (item : ResultType) : FormattedType :=
  { registerNo := item.registerNo
    studentName := item.studentName
    branch := item.branch
    semester := item.semester
    examType := item.examType
    grades := [(jsToKey item.course, deriveOutcome item)]
    withheld := item.withheld }

/-- The body of the `forEach` loop of `formatData`: `findIndex` locates
the first record with strictly equal (`===`) `registerNo`; if found, that
record's `grades[item.course]` is overwritten with the raw `item.grade`;
otherwise a new record is pushed at the end.  The first-match search and
in-place update are realised by head-first structural recursion. -/
def formatStep (item : ResultType) : List FormattedType → List FormattedType
  | [] => [mkNewRecord item]
  | f :: rest =>
      if f.registerNo = item.registerNo then
        { f with grades := setKey f.grades (jsToKey item.course) item.grade } :: rest
      else
        f :: formatStep item rest

/-- `formatData` (`main.ts` lines 86–117): fold the loop body over the
input rows, starting from the empty output array. -/
def formatData (data : List ResultType) : List FormattedType :=
  data.foldl (fun acc item => formatStep item acc) []

/-- `getAllCourses` (`main.ts` lines 120–130): scan every record's
`grades` keys in order and push each key not already collected. -/
def getAllCourses (data : List FormattedType) : List String :=
  data.foldl
    (fun courses item =>
      item.grades.foldl
        (fun cs kv => if kv.1 ∈ cs then cs else cs ++ [kv.1]) courses)
    []

/-- The `registerNo` column of a list of output records. -/
def regsOf (l : List FormattedType) : List JsPrim :=
  l.map (fun f => f.registerNo)

/-- First-seen-order deduplication, carrying the set of already seen
elements: the spec-side notion of "distinct values in first-seen order". -/
def dedupSeen {α : Type} [DecidableEq α] : List α → List α → List α
  | _, [] => []
  | seen, x :: xs =>
      if x ∈ seen then dedupSeen seen xs else x :: dedupSeen (x :: seen) xs

/-- The distinct elements of a list, in order of first occurrence. -/
def dedupFirst {α : Type} [DecidableEq α] (l : List α) : List α :=
  dedupSeen [] l

/-! ### The parser front end (`parseCsv`, `main.ts` lines 41–84)

`parseCsv` reads the file as text, splits it on the regex `/\r\n|\n/`,
reports "File is empty" through the error callback when fewer than 2
lines result, replaces every semicolon by a comma in the first line, and
hands the re-joined text to `Papa.parse`.  We embed the part up to the
`Papa.parse` call: `parseCsv` below maps the input text to the text
passed to the CSV library (`none` is the error-callback path, on which no
records are produced). -/

/-- Prepend a character to the first chunk of a split result (the
current character extends the line being scanned). -/
def consHead (c : Char) : List (List Char) → List (List Char)
  | [] => [[c]]
  | l :: ls => (c :: l) :: ls

/-- Split a character list at every `\r\n` or `\n` (the regex
`/\r\n|\n/`: at each position the alternation first tries `\r\n`, then
`\n`; a lone `\r` is ordinary content). -/
def splitCL : List Char → List (List Char)
  | [] => [[]]
  | '\r' :: '\n' :: rest => [] :: splitCL rest
  | '\n' :: rest => [] :: splitCL rest
  | c :: rest => consHead c (splitCL rest)

/-- `file.split(/\r\n|\n/)` on strings. -/
def jsSplitLines (s : String) : List String :=
  (splitCL s.data).map (fun cs => String.mk cs)

/-- `line.replaceAll(";", ",")` at the character level. -/
def replaceSemiC (cs : List Char) : List Char :=
  cs.map (fun c => if c = ';' then ',' else c)

/-- `line.replaceAll(";", ",")`. -/
def replaceSemi (s : String) : String :=
  String.mk (replaceSemiC s.data)

/-- `allLines.join("\n")` (JavaScript `Array.prototype.join`). -/
def joinLines : List String → String
  | [] => ""
  | [l] => l
  | l :: ls => l ++ "\n" ++ joinLines ls

/-- The text-level behaviour of `parseCsv`: split into lines, fail when
fewer than 2 lines, normalise semicolons in the header line only, and
re-join with `\n` into the text handed to `Papa.parse`. -/
def parseCsv (s : String) : Option String :=
  if (jsSplitLines s).length < 2 then none
  else some (joinLines (replaceSemi ((jsSplitLines s).headD "") :: (jsSplitLines s).tail))

/-- The number of non-empty lines of the input (what the spec counts). -/
def nonEmptyLineCount (s : String) : Nat :=
  ((jsSplitLines s).filter (fun l => l ≠ "")).length

/-! ### Spec-side typed view of the derivation rule (for claim C2)

The spec states the seeding rule on well-typed fields
(`grade : Grade | null`, `attendance : "Present" | "Absent"`,
`withheld : "Withheld" | "With held for Malpractice" | null`).  These
definitions follow the spec's words; the refinement theorem compares them
with `deriveOutcome`, which is translated from the code. -/

/-- The grade scale (`enum Grade` of the data model). -/
inductive GradeE where
  | F | E | D | C | B | A | S
deriving DecidableEq, Repr

/-- The string value of a grade (`Grade.F = "F"` etc.). -/
def GradeE.toStr : GradeE → String
  | .F => "F"
  | .E => "E"
  | .D => "D"
  | .C => "C"
  | .B => "B"
  | .A => "A"
  | .S => "S"

/-- The attendance enum. -/
inductive AttendanceE where
  | present | absent
deriving DecidableEq, Repr

/-- The two withheld markers. -/
inductive WithheldE where
  | plain | malpractice
deriving DecidableEq, Repr

/-- A course outcome as the spec describes it:
{Grade(g), Absent, Withheld, Unset(null)}. -/
inductive OutcomeSpec where
  | grade (g : GradeE)
  | absent
  | withheldTag
  | unset
deriving DecidableEq, Repr

/-- The dynamic value of a typed grade field. -/
def encodeGradeOpt : Option GradeE → JsPrim
  | some g => .str g.toStr
  | none => .null

/-- The dynamic value of a typed attendance field. -/
def encodeAttendance : AttendanceE → JsPrim
  | .present => .str "Present"
  | .absent => .str "Absent"

/-- The dynamic value of a typed withheld field. -/
def encodeWithheldOpt : Option WithheldE → JsPrim
  | some .plain => .str "Withheld"
  | some .malpractice => .str "With held for Malpractice"
  | none => .null

/-- The dynamic value stored for a spec-level outcome. -/
def OutcomeSpec.toJs : OutcomeSpec → JsPrim
  | .grade g => .str g.toStr
  | .absent => .str "Absent"
  | .withheldTag => .str "Withheld"
  | .unset => .null

/-- Modelled from the spec: the derivation rule's precedence chain —
(a) grade non-null → Grade(grade); (b) attendance = Absent → Absent;
(c) withheld = MalpracticeWithheld → Grade(F); (d) withheld = Withheld →
Withheld; (e) otherwise → Unset(null). -/
def specDerive (g : Option GradeE) (att : AttendanceE) (w : Option WithheldE) :
    OutcomeSpec :=
  match g with
  | some gr => .grade gr
  | none =>
      if att = .absent then .absent
      else
        match w with
        | some .malpractice => .grade .F
        | some .plain => .withheldTag
        | none => .unset

/-! ### Spec-side descriptions of the aggregator's output -/

/-- The distinct course keys appearing for `registerNo = r` in the input,
in order of first occurrence. -/
def courseKeysFor (r : JsPrim) (data : List ResultType) : List String :=
  dedupFirst ((data.filter (fun i => i.registerNo = r)).map (fun i => jsToKey i.course))

/-- The output record's scalar fields are copies of the given row's. -/
def metaFrom (p : FormattedType) (item : ResultType) : Prop :=
  p.registerNo = item.registerNo ∧ p.studentName = item.studentName ∧
  p.branch = item.branch ∧ p.semester = item.semester ∧
  p.examType = item.examType ∧ p.withheld = item.withheld

/-- `item` is the first row of `data` whose `registerNo` is `r`. -/
def firstRowFor (data : List ResultType) (r : JsPrim) (item : ResultType) : Prop :=
  ∃ pre post, data = pre ++ item :: post ∧ item.registerNo = r ∧
    r ∉ pre.map (fun i => i.registerNo)

/-- The loop invariant of `formatData`: `acc` is the output accumulated
after consuming exactly the rows `processed`. -/
structure FoldInv (processed : List ResultType) (acc : List FormattedType) : Prop where
  regs : regsOf acc = dedupFirst (processed.map (fun i => i.registerNo))
  keys : ∀ p ∈ acc, p.grades.map Prod.fst = courseKeysFor p.registerNo processed
  meta : ∀ p ∈ acc, ∃ item, firstRowFor processed p.registerNo item ∧ metaFrom p item
  vals : ∀ p ∈ acc, ∀ kv ∈ p.grades,
    (∃ item ∈ processed, kv.2 = item.grade) ∨
    (∃ item ∈ processed, kv.2 = deriveOutcome item)

/-- A concrete row builder used in witness instances. -/
def mkRow (reg : JsPrim) (course : String) (grade attendance withheld : JsPrim) :
    ResultType :=
  { registerNo := reg
    studentName := .str "N"
    branch := .str "CS"
    semester := .num 1
    course := .str course
    examType := .str "Regular"
    attendance := attendance
    withheld := withheld
    iMark := .null
    grade := grade
    result := .null }

/-! ### Lemmas on first-seen deduplication -/

theorem dedupSeen_congr {α : Type} [DecidableEq α] (l : List α) :
    ∀ s₁ s₂ : List α, (∀ a, a ∈ s₁ ↔ a ∈ s₂) → dedupSeen s₁ l = dedupSeen s₂ l := by
  induction l with
  | nil => intro s₁ s₂ _; rfl
  | cons x xs ih =>
    intro s₁ s₂ h
    simp only [dedupSeen]
    by_cases hx : x ∈ s₁
    · rw [if_pos hx, if_pos ((h x).1 hx)]
      exact ih _ _ h
    · rw [if_neg hx, if_neg (fun hc => hx ((h x).2 hc))]
      have hcons : ∀ a, a ∈ x :: s₁ ↔ a ∈ x :: s₂ := by
        intro a; simp only [List.mem_cons]; rw [h a]
      rw [ih _ _ hcons]

theorem mem_dedupSeen {α : Type} [DecidableEq α] (l : List α) :
    ∀ (seen : List α) (a : α), a ∈ dedupSeen seen l ↔ a ∈ l ∧ a ∉ seen := by
  induction l with
  | nil => intro seen a; simp [dedupSeen]
  | cons x xs ih =>
    intro seen a
    simp only [dedupSeen]
    by_cases hx : x ∈ seen
    · rw [if_pos hx, ih]
      constructor
      · rintro ⟨h1, h2⟩; exact ⟨List.mem_cons_of_mem _ h1, h2⟩
      · rintro ⟨h1, h2⟩
        rcases List.mem_cons.mp h1 with rfl | h1
        · exact absurd hx h2
        · exact ⟨h1, h2⟩
    · rw [if_neg hx]
      rw [List.mem_cons, ih]
      constructor
      · rintro (rfl | ⟨h1, h2⟩)
        · exact ⟨List.mem_cons_self _ _, hx⟩
        · exact ⟨List.mem_cons_of_mem _ h1, fun hc => h2 (List.mem_cons_of_mem _ hc)⟩
      · rintro ⟨h1, h2⟩
        rcases List.mem_cons.mp h1 with rfl | h1
        · exact Or.inl rfl
        · by_cases hax : a = x
          · exact Or.inl hax
          · refine Or.inr ⟨h1, ?_⟩
            intro hc
            rcases List.mem_cons.mp hc with h | h
            · exact hax h
            · exact h2 h

theorem dedupSeen_nodup {α : Type} [DecidableEq α] (l : List α) :
    ∀ seen : List α, (dedupSeen seen l).Nodup := by
  induction l with
  | nil => intro seen; simp [dedupSeen]
  | cons x xs ih =>
    intro seen
    simp only [dedupSeen]
    by_cases hx : x ∈ seen
    · rw [if_pos hx]; exact ih seen
    · rw [if_neg hx]
      refine List.nodup_cons.mpr ⟨?_, ih _⟩
      intro hc
      exact ((mem_dedupSeen xs _ x).1 hc).2 (List.mem_cons_self x seen)

theorem mem_dedupFirst {α : Type} [DecidableEq α] (l : List α) (a : α) :
    a ∈ dedupFirst l ↔ a ∈ l := by
  unfold dedupFirst
  rw [mem_dedupSeen]
  simp

theorem dedupFirst_nodup {α : Type} [DecidableEq α] (l : List α) :
    (dedupFirst l).Nodup :=
  dedupSeen_nodup l []

theorem dedupSeen_append_single {α : Type} [DecidableEq α] (l : List α) :
    ∀ (seen : List α) (x : α), dedupSeen seen (l ++ [x]) =
      dedupSeen seen l ++ (if x ∈ seen ∨ x ∈ l then [] else [x]) := by
  induction l with
  | nil =>
    intro seen x
    by_cases hx : x ∈ seen <;> simp [hx, dedupSeen]
  | cons y ys ih =>
    intro seen x
    rw [List.cons_append]
    simp only [dedupSeen, List.append_eq]
    by_cases hy : y ∈ seen
    · rw [if_pos hy, if_pos hy, ih]
      have hiff : (x ∈ seen ∨ x ∈ ys) ↔ (x ∈ seen ∨ x ∈ y :: ys) := by
        simp only [List.mem_cons]
        constructor
        · rintro (h | h)
          · exact Or.inl h
          · exact Or.inr (Or.inr h)
        · rintro (h | rfl | h)
          · exact Or.inl h
          · exact Or.inl hy
          · exact Or.inr h
      rw [if_congr hiff rfl rfl]
    · rw [if_neg hy, if_neg hy, ih]
      have hiff : (x ∈ y :: seen ∨ x ∈ ys) ↔ (x ∈ seen ∨ x ∈ y :: ys) := by
        simp only [List.mem_cons]
        tauto
      rw [if_congr hiff rfl rfl, List.cons_append]

theorem dedupFirst_append_single {α : Type} [DecidableEq α] (l : List α) (x : α) :
    dedupFirst (l ++ [x]) = dedupFirst l ++ (if x ∈ l then [] else [x]) := by
  unfold dedupFirst
  rw [dedupSeen_append_single]
  simp

/-! ### Lemmas on association-list update -/

theorem setKey_keys (m : List (String × JsPrim)) (k : String) (v : JsPrim) :
    (setKey m k v).map Prod.fst =
      if k ∈ m.map Prod.fst then m.map Prod.fst else m.map Prod.fst ++ [k] := by
  induction m with
  | nil => simp [setKey]
  | cons kv rest ih =>
    obtain ⟨k', v'⟩ := kv
    simp only [setKey]
    by_cases hk : k' = k
    · subst hk; simp
    · simp only [if_neg hk, List.map_cons, List.mem_cons, ih]
      by_cases hmem : k ∈ rest.map Prod.fst
      · rw [if_pos hmem, if_pos (by tauto)]
      · rw [if_neg hmem, if_neg (by tauto)]
        simp

theorem lookupKey_setKey (m : List (String × JsPrim)) (k : String) (v : JsPrim) :
    lookupKey (setKey m k v) k = some v := by
  induction m with
  | nil => simp [setKey, lookupKey]
  | cons kv rest ih =>
    obtain ⟨k', v'⟩ := kv
    simp only [setKey]
    by_cases hk : k' = k
    · simp [hk, lookupKey]
    · simp [hk, lookupKey, ih]

theorem mem_setKey (m : List (String × JsPrim)) (k : String) (v : JsPrim) :
    ∀ kv ∈ setKey m k v, kv ∈ m ∨ kv = (k, v) := by
  induction m with
  | nil => intro kv h; simp [setKey] at h; simp [h]
  | cons e rest ih =>
    obtain ⟨k', v'⟩ := e
    intro kv h
    simp only [setKey] at h
    by_cases hk : k' = k
    · rw [if_pos hk] at h
      rcases List.mem_cons.mp h with rfl | h
      · exact Or.inr rfl
      · exact Or.inl (List.mem_cons_of_mem _ h)
    · rw [if_neg hk] at h
      rcases List.mem_cons.mp h with rfl | h
      · exact Or.inl (List.mem_cons_self _ _)
      · rcases ih kv h with h' | h'
        · exact Or.inl (List.mem_cons_of_mem _ h')
        · exact Or.inr h'

/-! ### Lemmas on the loop body of `formatData` -/

theorem regsOf_append (a b : List FormattedType) :
    regsOf (a ++ b) = regsOf a ++ regsOf b := by
  simp [regsOf]

theorem formatStep_not_mem (item : ResultType) (acc : List FormattedType)
    (h : item.registerNo ∉ regsOf acc) :
    formatStep item acc = acc ++ [mkNewRecord item] := by
  induction acc with
  | nil => rfl
  | cons f rest ih =>
    simp only [regsOf, List.map_cons, List.mem_cons] at h
    push_neg at h
    simp only [formatStep]
    rw [if_neg (fun hc => h.1 hc.symm), List.cons_append,
      ih (by simpa [regsOf] using h.2)]

theorem formatStep_update (item : ResultType) (pre : List FormattedType)
    (p : FormattedType) (post : List FormattedType)
    (hpre : item.registerNo ∉ regsOf pre) (hp : p.registerNo = item.registerNo) :
    formatStep item (pre ++ p :: post) =
      pre ++ { p with grades := setKey p.grades (jsToKey item.course) item.grade } :: post := by
  induction pre with
  | nil =>
    simp only [List.nil_append, formatStep]
    rw [if_pos hp]
  | cons f rest ih =>
    simp only [regsOf, List.map_cons, List.mem_cons] at hpre
    push_neg at hpre
    simp only [List.cons_append, formatStep, List.append_eq]
    rw [if_neg (fun hc => hpre.1 hc.symm), ih (by simpa [regsOf] using hpre.2)]

theorem mem_regs_decomp (acc : List FormattedType) (r : JsPrim) (h : r ∈ regsOf acc) :
    ∃ pre p post, acc = pre ++ p :: post ∧ p.registerNo = r ∧ r ∉ regsOf pre := by
  induction acc with
  | nil => simp [regsOf] at h
  | cons f rest ih =>
    by_cases hf : f.registerNo = r
    · exact ⟨[], f, rest, rfl, hf, by simp [regsOf]⟩
    · have h' : r ∈ regsOf rest := by
        simp only [regsOf, List.map_cons, List.mem_cons] at h
        rcases h with h | h
        · exact absurd h.symm hf
        · simpa [regsOf] using h
      obtain ⟨pre, p, post, heq, hp, hnpre⟩ := ih h'
      refine ⟨f :: pre, p, post, by simp [heq], hp, ?_⟩
      intro hc
      simp only [regsOf, List.map_cons, List.mem_cons] at hc
      rcases hc with hc | hc
      · exact hf hc.symm
      · exact hnpre (by simpa [regsOf] using hc)

theorem formatData_append_single (data : List ResultType) (item : ResultType) :
    formatData (data ++ [item]) = formatStep item (formatData data) := by
  simp [formatData, List.foldl_append]

/-! ### Lemmas on the spec-side descriptions -/

theorem courseKeysFor_append_other (r : JsPrim) (data : List ResultType)
    (item : ResultType) (h : ¬ item.registerNo = r) :
    courseKeysFor r (data ++ [item]) = courseKeysFor r data := by
  unfold courseKeysFor
  rw [List.filter_append]
  have hnil : List.filter (fun i => i.registerNo = r) [item] = [] := by
    simp [List.filter, h]
  rw [hnil, List.append_nil]

theorem courseKeysFor_append_same (r : JsPrim) (data : List ResultType)
    (item : ResultType) (h : item.registerNo = r) :
    courseKeysFor r (data ++ [item]) =
      courseKeysFor r data ++
        (if jsToKey item.course ∈
            (data.filter (fun i => i.registerNo = r)).map (fun i => jsToKey i.course)
          then [] else [jsToKey item.course]) := by
  unfold courseKeysFor
  rw [List.filter_append]
  have hone : List.filter (fun i => i.registerNo = r) [item] = [item] := by
    simp [List.filter, h]
  rw [hone, List.map_append, List.map_singleton, dedupFirst_append_single]

theorem courseKeysFor_not_mem (r : JsPrim) (data : List ResultType)
    (h : ∀ i ∈ data, ¬ i.registerNo = r) :
    courseKeysFor r data = [] := by
  unfold courseKeysFor
  have hnil : List.filter (fun i => i.registerNo = r) data = [] := by
    rw [List.filter_eq_nil_iff]
    intro a ha
    simpa using h a ha
  rw [hnil]
  rfl

theorem firstRowFor_extend (data : List ResultType) (r : JsPrim)
    (it x : ResultType) (h : firstRowFor data r it) :
    firstRowFor (data ++ [x]) r it := by
  obtain ⟨pre, post, heq, h1, h2⟩ := h
  exact ⟨pre, post ++ [x], by rw [heq]; simp, h1, h2⟩

/-! ### The invariant is established and preserved -/

theorem foldInv_step (processed : List ResultType) (acc : List FormattedType)
    (item : ResultType) (hinv : FoldInv processed acc) :
    FoldInv (processed ++ [item]) (formatStep item acc) := by
  by_cases hr : item.registerNo ∈ regsOf acc
  · -- the registerNo already has a record: in-place update of the first match
    obtain ⟨pre, p, post, heq, hpr, hnpre⟩ := mem_regs_decomp acc item.registerNo hr
    subst heq
    rw [formatStep_update item pre p post hnpre hpr]
    have hrin : item.registerNo ∈ processed.map (fun i => i.registerNo) := by
      have h := hr
      rw [hinv.regs, mem_dedupFirst] at h
      exact h
    have hnodup : (regsOf (pre ++ p :: post)).Nodup := by
      rw [hinv.regs]
      exact dedupFirst_nodup _
    have hnpost : item.registerNo ∉ regsOf post := by
      rw [regsOf_append] at hnodup
      have h2 : (p.registerNo :: regsOf post).Nodup := by
        simpa [regsOf] using hnodup.of_append_right
      intro hc
      have hc' : p.registerNo ∈ regsOf post := by rw [hpr]; exact hc
      exact (List.nodup_cons.mp h2).1 hc'
    refine ⟨?_, ?_, ?_, ?_⟩
    · -- regs
      have hregs_eq :
          regsOf (pre ++
            { p with grades := setKey p.grades (jsToKey item.course) item.grade } :: post) =
          regsOf (pre ++ p :: post) := by
        simp [regsOf]
      rw [hregs_eq, hinv.regs, List.map_append]
      simp only [List.map_cons, List.map_nil]
      rw [dedupFirst_append_single, if_pos hrin, List.append_nil]
    · -- keys
      intro q hq
      rcases List.mem_append.mp hq with hq | hq
      · have hne : ¬ item.registerNo = q.registerNo := by
          intro hc
          apply hnpre
          rw [hc]
          simpa [regsOf] using List.mem_map_of_mem (fun f => f.registerNo) hq
        rw [courseKeysFor_append_other _ _ _ hne]
        exact hinv.keys q (List.mem_append_left _ hq)
      · rcases List.mem_cons.mp hq with rfl | hq
        · have hkeys := hinv.keys p (List.mem_append_right _ (List.mem_cons_self _ _))
          have hsame := courseKeysFor_append_same p.registerNo processed item hpr.symm
          show (setKey p.grades (jsToKey item.course) item.grade).map Prod.fst =
            courseKeysFor p.registerNo (processed ++ [item])
          rw [setKey_keys, hkeys, hsame]
          have hmem : (jsToKey item.course ∈ courseKeysFor p.registerNo processed) ↔
              jsToKey item.course ∈
                (processed.filter (fun i => i.registerNo = p.registerNo)).map
                  (fun i => jsToKey i.course) := by
            unfold courseKeysFor
            exact mem_dedupFirst _ _
          by_cases hk : jsToKey item.course ∈
              (processed.filter (fun i => i.registerNo = p.registerNo)).map
                (fun i => jsToKey i.course)
          · rw [if_pos (hmem.mpr hk), if_pos hk, List.append_nil]
          · rw [if_neg (fun hc => hk (hmem.mp hc)), if_neg hk]
        · have hne : ¬ item.registerNo = q.registerNo := by
            intro hc
            apply hnpost
            rw [hc]
            simpa [regsOf] using List.mem_map_of_mem (fun f => f.registerNo) hq
          rw [courseKeysFor_append_other _ _ _ hne]
          exact hinv.keys q (List.mem_append_right _ (List.mem_cons_of_mem _ hq))
    · -- meta
      intro q hq
      rcases List.mem_append.mp hq with hq | hq
      · obtain ⟨it, h1, h2⟩ := hinv.meta q (List.mem_append_left _ hq)
        exact ⟨it, firstRowFor_extend _ _ _ _ h1, h2⟩
      · rcases List.mem_cons.mp hq with rfl | hq
        · obtain ⟨it, h1, h2⟩ :=
            hinv.meta p (List.mem_append_right _ (List.mem_cons_self _ _))
          exact ⟨it, firstRowFor_extend _ _ _ _ h1, h2⟩
        · obtain ⟨it, h1, h2⟩ :=
            hinv.meta q (List.mem_append_right _ (List.mem_cons_of_mem _ hq))
          exact ⟨it, firstRowFor_extend _ _ _ _ h1, h2⟩
    · -- vals
      intro q hq kv hkv
      rcases List.mem_append.mp hq with hq | hq
      · rcases hinv.vals q (List.mem_append_left _ hq) kv hkv with
          ⟨it, hit, hv⟩ | ⟨it, hit, hv⟩
        · exact Or.inl ⟨it, List.mem_append_left _ hit, hv⟩
        · exact Or.inr ⟨it, List.mem_append_left _ hit, hv⟩
      · rcases List.mem_cons.mp hq with rfl | hq
        · have hkv' : kv ∈ setKey p.grades (jsToKey item.course) item.grade := hkv
          rcases mem_setKey _ _ _ kv hkv' with hkv2 | hkv2
          · rcases hinv.vals p (List.mem_append_right _ (List.mem_cons_self _ _)) kv hkv2
              with ⟨it, hit, hv⟩ | ⟨it, hit, hv⟩
            · exact Or.inl ⟨it, List.mem_append_left _ hit, hv⟩
            · exact Or.inr ⟨it, List.mem_append_left _ hit, hv⟩
          · exact Or.inl ⟨item, List.mem_append_right _ (by simp), by rw [hkv2]⟩
        · rcases hinv.vals q (List.mem_append_right _ (List.mem_cons_of_mem _ hq)) kv hkv
            with ⟨it, hit, hv⟩ | ⟨it, hit, hv⟩
          · exact Or.inl ⟨it, List.mem_append_left _ hit, hv⟩
          · exact Or.inr ⟨it, List.mem_append_left _ hit, hv⟩
  · -- a first-seen registerNo: a new record is pushed at the end
    have hnotp : item.registerNo ∉ processed.map (fun i => i.registerNo) := by
      intro hc
      apply hr
      rw [hinv.regs, mem_dedupFirst]
      exact hc
    rw [formatStep_not_mem item acc hr]
    refine ⟨?_, ?_, ?_, ?_⟩
    · -- regs
      rw [regsOf_append, hinv.regs, List.map_append]
      simp only [List.map_cons, List.map_nil]
      rw [dedupFirst_append_single, if_neg hnotp]
      rfl
    · -- keys
      intro p hp
      rcases List.mem_append.mp hp with hp | hp
      · have hne : ¬ item.registerNo = p.registerNo := by
          intro hc
          apply hr
          rw [hc]
          simpa [regsOf] using List.mem_map_of_mem (fun f => f.registerNo) hp
        rw [courseKeysFor_append_other _ _ _ hne]
        exact hinv.keys p hp
      · have hp' : p = mkNewRecord item := by simpa using hp
        subst hp'
        have hfil : ∀ i ∈ processed, ¬ i.registerNo = (mkNewRecord item).registerNo := by
          intro i hi hc
          have hmem : i.registerNo ∈ processed.map (fun i => i.registerNo) :=
            List.mem_map_of_mem _ hi
          rw [hc] at hmem
          exact hnotp hmem
        have hck : courseKeysFor (mkNewRecord item).registerNo processed = [] :=
          courseKeysFor_not_mem _ _ hfil
        have hfilnil : processed.filter
            (fun i => i.registerNo = (mkNewRecord item).registerNo) = [] := by
          rw [List.filter_eq_nil_iff]
          intro a ha
          simpa using hfil a ha
        rw [courseKeysFor_append_same (mkNewRecord item).registerNo processed item rfl,
          hck, hfilnil]
        simp [mkNewRecord, dedupFirst, dedupSeen]
    · -- meta
      intro p hp
      rcases List.mem_append.mp hp with hp | hp
      · obtain ⟨it, h1, h2⟩ := hinv.meta p hp
        exact ⟨it, firstRowFor_extend _ _ _ _ h1, h2⟩
      · have hp' : p = mkNewRecord item := by simpa using hp
        subst hp'
        refine ⟨item, ⟨processed, [], by simp, rfl, hnotp⟩, ?_⟩
        exact ⟨rfl, rfl, rfl, rfl, rfl, rfl⟩
    · -- vals
      intro p hp kv hkv
      rcases List.mem_append.mp hp with hp | hp
      · rcases hinv.vals p hp kv hkv with ⟨it, hit, hv⟩ | ⟨it, hit, hv⟩
        · exact Or.inl ⟨it, List.mem_append_left _ hit, hv⟩
        · exact Or.inr ⟨it, List.mem_append_left _ hit, hv⟩
      · have hp' : p = mkNewRecord item := by simpa using hp
        subst hp'
        have hkv' : kv = (jsToKey item.course, deriveOutcome item) := by
          simpa [mkNewRecord] using hkv
        exact Or.inr ⟨item, List.mem_append_right _ (by simp), by rw [hkv']⟩

theorem foldInv_nil : FoldInv [] [] where
  regs := rfl
  keys := by intro p hp; simp at hp
  meta := by intro p hp; simp at hp
  vals := by intro p hp; simp at hp

theorem foldInv_fold (data : List ResultType) :
    ∀ processed acc, FoldInv processed acc →
      FoldInv (processed ++ data) (data.foldl (fun a i => formatStep i a) acc) := by
  induction data with
  | nil =>
    intro processed acc h
    simpa using h
  | cons item rest ih =>
    intro processed acc h
    have h1 := foldInv_step processed acc item h
    have h2 := ih (processed ++ [item]) (formatStep item acc) h1
    simpa [List.append_assoc] using h2

theorem formatData_inv (data : List ResultType) : FoldInv data (formatData data) := by
  have h := foldInv_fold data [] [] foldInv_nil
  simpa [formatData] using h

/-! ### Lemmas on the line splitter -/

theorem consHead_ne_nil (c : Char) (xs : List (List Char)) : consHead c xs ≠ [] := by
  cases xs <;> simp [consHead]

theorem splitCL_crlf (rest : List Char) :
    splitCL ('\r' :: '\n' :: rest) = [] :: splitCL rest := rfl

theorem splitCL_newline (rest : List Char) :
    splitCL ('\n' :: rest) = [] :: splitCL rest := rfl

theorem splitCL_other (c : Char) (rest : List Char) (h1 : c ≠ '\n')
    (h2 : ¬(c = '\r' ∧ rest.head? = some '\n')) :
    splitCL (c :: rest) = consHead c (splitCL rest) := by
  rw [splitCL.eq_def]
  split
  · rename_i heq
    exact absurd heq (by simp)
  · rename_i heq
    rw [List.cons.injEq] at heq
    exact absurd ⟨heq.1, by rw [heq.2]; rfl⟩ h2
  · rename_i heq
    rw [List.cons.injEq] at heq
    exact absurd heq.1 h1
  · rename_i heq
    rw [List.cons.injEq] at heq
    rw [heq.1, heq.2]

theorem not_crlf_head (c : Char) (rest : List Char)
    (hcr : ∀ r2, c = '\r' → rest = '\n' :: r2 → False) :
    ¬(c = '\r' ∧ rest.head? = some '\n') := by
  rintro ⟨hc, hhd⟩
  rcases rest with _ | ⟨r, rs⟩
  · simp at hhd
  · simp at hhd
    exact hcr rs hc (by rw [hhd])

theorem splitCL_ne_nil (cs : List Char) : splitCL cs ≠ [] := by
  induction cs using splitCL.induct with
  | case1 => simp [splitCL]
  | case2 rest ih => rw [splitCL_crlf]; simp
  | case3 rest ih => rw [splitCL_newline]; simp
  | case4 c rest hcr hn ih =>
    rw [splitCL_other c rest hn (not_crlf_head c rest hcr)]
    exact consHead_ne_nil _ _

theorem splitCL_no_newline (cs : List Char) (h : '\n' ∉ cs) : splitCL cs = [cs] := by
  induction cs with
  | nil => rfl
  | cons c rest ih =>
    have h1 : c ≠ '\n' := fun hc => h (by rw [hc]; exact List.mem_cons_self _ _)
    have hrest : '\n' ∉ rest := fun hc => h (List.mem_cons_of_mem _ hc)
    have h2 : ¬(c = '\r' ∧ rest.head? = some '\n') := by
      rintro ⟨-, hhd⟩
      rcases rest with _ | ⟨r, rs⟩
      · simp at hhd
      · simp at hhd
        exact hrest (by rw [hhd]; exact List.mem_cons_self _ _)
    rw [splitCL_other c rest h1 h2, ih hrest]
    rfl

theorem splitCL_length_of_newline (cs : List Char) (h : '\n' ∈ cs) :
    2 ≤ (splitCL cs).length := by
  induction cs using splitCL.induct with
  | case1 => simp at h
  | case2 rest ih =>
    rw [splitCL_crlf]
    have h2 : 0 < (splitCL rest).length := List.length_pos.mpr (splitCL_ne_nil rest)
    simp only [List.length_cons]
    omega
  | case3 rest ih =>
    rw [splitCL_newline]
    have h2 : 0 < (splitCL rest).length := List.length_pos.mpr (splitCL_ne_nil rest)
    simp only [List.length_cons]
    omega
  | case4 c rest hcr hn ih =>
    have hrest : '\n' ∈ rest := by
      rcases List.mem_cons.mp h with hc | hc
      · exact absurd hc.symm hn
      · exact hc
    rw [splitCL_other c rest hn (not_crlf_head c rest hcr)]
    have h3 := ih hrest
    rcases hsp : splitCL rest with _ | ⟨l, ls⟩
    · exact absurd hsp (splitCL_ne_nil rest)
    · rw [hsp] at h3
      simp only [consHead, List.length_cons] at h3 ⊢
      omega

theorem splitCL_prefix (l t : List Char) (hn : '\n' ∉ l) (hr : '\r' ∉ l) :
    splitCL (l ++ '\n' :: t) = l :: splitCL t := by
  induction l with
  | nil =>
    rw [List.nil_append, splitCL_newline]
  | cons c cl ih =>
    have h1 : c ≠ '\n' := fun hc => hn (by rw [hc]; exact List.mem_cons_self _ _)
    have hcr : c ≠ '\r' := fun hc => hr (by rw [hc]; exact List.mem_cons_self _ _)
    rw [List.cons_append,
      splitCL_other c (cl ++ '\n' :: t) h1 (fun hc => hcr hc.1),
      ih (fun hc => hn (List.mem_cons_of_mem _ hc))
        (fun hc => hr (List.mem_cons_of_mem _ hc))]
    rfl

/-! ### Lemmas on joining and splitting whole strings -/

theorem string_mk_data (s : String) : String.mk s.data = s := rfl

theorem joinLines_data_cons (l m : String) (ms : List String) :
    (joinLines (l :: m :: ms)).data = l.data ++ '\n' :: (joinLines (m :: ms)).data := by
  show (l ++ "\n" ++ joinLines (m :: ms)).data = _
  rw [String.data_append, String.data_append, List.append_assoc]
  rfl

theorem jsSplitLines_joinLines (ls : List String) (hne : ls ≠ [])
    (hclean : ∀ l ∈ ls, '\n' ∉ l.data ∧ '\r' ∉ l.data) :
    jsSplitLines (joinLines ls) = ls := by
  induction ls with
  | nil => exact absurd rfl hne
  | cons l ms ih =>
    rcases ms with _ | ⟨m, ms'⟩
    · have h := hclean l (List.mem_cons_self _ _)
      unfold jsSplitLines
      have hj : joinLines [l] = l := rfl
      rw [hj, splitCL_no_newline l.data h.1]
      simp [string_mk_data]
    · have h := hclean l (List.mem_cons_self _ _)
      have ihh := ih (by simp) (fun x hx => hclean x (List.mem_cons_of_mem _ hx))
      unfold jsSplitLines at ihh ⊢
      rw [joinLines_data_cons l m ms', splitCL_prefix _ _ h.1 h.2,
        List.map_cons, string_mk_data, ihh]

/-! ### Lemmas on semicolon replacement -/

theorem replaceSemiC_idem (cs : List Char) :
    replaceSemiC (replaceSemiC cs) = replaceSemiC cs := by
  simp only [replaceSemiC, List.map_map]
  apply List.map_congr_left
  intro c _
  by_cases h : c = ';' <;> simp [Function.comp, h]

theorem replaceSemi_idem (s : String) : replaceSemi (replaceSemi s) = replaceSemi s := by
  unfold replaceSemi
  rw [show (String.mk (replaceSemiC s.data)).data = replaceSemiC s.data from rfl,
    replaceSemiC_idem]

theorem replaceSemiC_not_mem (cs : List Char) (c : Char) (hc : c ≠ ',') (h : c ∉ cs) :
    c ∉ replaceSemiC cs := by
  intro hmem
  unfold replaceSemiC at hmem
  rcases List.mem_map.mp hmem with ⟨a, ha, hEq⟩
  by_cases ha2 : a = ';'
  · rw [if_pos ha2] at hEq
    exact hc hEq.symm
  · rw [if_neg ha2] at hEq
    rw [← hEq] at h
    exact h ha

/-! ### The collector loop of `getAllCourses` is first-seen deduplication -/

theorem foldl_dedup_step {α : Type} [DecidableEq α] (l : List α) :
    ∀ acc : List α,
      l.foldl (fun cs x => if x ∈ cs then cs else cs ++ [x]) acc =
        acc ++ dedupSeen acc l := by
  induction l with
  | nil => intro acc; simp [dedupSeen]
  | cons x xs ih =>
    intro acc
    simp only [List.foldl_cons, dedupSeen]
    by_cases hx : x ∈ acc
    · rw [if_pos hx, if_pos hx, ih]
    · rw [if_neg hx, if_neg hx, ih,
        dedupSeen_congr xs (acc ++ [x]) (x :: acc) (by intro a; simp; tauto)]
      simp

theorem getAllCourses_fold (data : List FormattedType) :
    ∀ acc : List String,
      data.foldl
        (fun courses item =>
          item.grades.foldl
            (fun cs kv => if kv.1 ∈ cs then cs else cs ++ [kv.1]) courses) acc =
      ((data.map (fun p => p.grades.map Prod.fst)).flatten).foldl
        (fun cs k => if k ∈ cs then cs else cs ++ [k]) acc := by
  induction data with
  | nil => intro acc; rfl
  | cons p rest ih =>
    intro acc
    simp only [List.foldl_cons, List.map_cons, List.flatten_cons, List.foldl_append]
    rw [ih, List.foldl_map]

/-! ### Locating a record by `registerNo` -/

theorem find_reg_first (r : JsPrim) (pre : List FormattedType) (q : FormattedType)
    (post : List FormattedType) (hpre : r ∉ regsOf pre) (hq : q.registerNo = r) :
    (pre ++ q :: post).find? (fun f => f.registerNo == r) = some q := by
  induction pre with
  | nil =>
    rw [List.nil_append]
    exact List.find?_cons_of_pos _ (by simp [hq])
  | cons f rest ih =>
    simp only [regsOf, List.map_cons, List.mem_cons] at hpre
    push_neg at hpre
    rw [List.cons_append,
      List.find?_cons_of_neg _
        (by simp only [beq_iff_eq]; exact fun hc => hpre.1 hc.symm),
      ih (by simpa [regsOf] using hpre.2)]

/-! ### The typed derivation rule matches the code's truthiness chain -/

theorem gradeE_truthy (gr : GradeE) : jsTruthy (.str gr.toStr) = true := by
  cases gr <;> decide

theorem deriveOutcome_typed (item : ResultType) (g : Option GradeE) (a : AttendanceE)
    (w : Option WithheldE) (hg : item.grade = encodeGradeOpt g)
    (ha : item.attendance = encodeAttendance a) (hw : item.withheld = encodeWithheldOpt w) :
    deriveOutcome item = (specDerive g a w).toJs := by
  unfold deriveOutcome
  rw [hg, ha, hw]
  rcases g with _ | gr
  · cases a
    · rcases w with _ | wh
      · decide
      · cases wh <;> decide
    · rcases w with _ | wh
      · decide
      · cases wh <;> decide
  · simp [encodeGradeOpt, gradeE_truthy, specDerive, OutcomeSpec.toJs]

theorem parseCsv_of_lines (s l0 a : String) (ls : List String)
    (h : jsSplitLines s = l0 :: a :: ls) :
    parseCsv s = some (joinLines (replaceSemi l0 :: a :: ls)) := by
  unfold parseCsv
  rw [h, if_neg (by simp only [List.length_cons]; omega)]
  rfl

/-! ## The claims -/

/-- C1: for every input sequence of `ResultType` rows, `formatData`
returns exactly one `FormattedType` per distinct `registerNo` value of
the input (the projected `registerNo` column is duplicate-free), and the
output order is the order of first occurrence of each `registerNo`. -/
theorem claim_C1_one_record_per_registerNo_first_seen (data : List ResultType) :
    (formatData data).map (fun f => f.registerNo) =
      dedupFirst (data.map (fun i => i.registerNo)) ∧
    ((formatData data).map (fun f => f.registerNo)).Nodup := by
  have h : (formatData data).map (fun f => f.registerNo) =
      dedupFirst (data.map (fun i => i.registerNo)) := (formatData_inv data).regs
  refine ⟨h, ?_⟩
  rw [h]
  exact dedupFirst_nodup _

/-- C2: on a first-seen `registerNo`, `formatData` pushes a record whose
seeded course outcome follows the spec's precedence chain (grade, then
absence, then malpractice-as-F, then withheld, then null), stated for
well-typed field values via the spec-side `specDerive`. -/
theorem claim_C2_first_row_derivation_chain (data : List ResultType)
    (item : ResultType) (g : Option GradeE) (a : AttendanceE) (w : Option WithheldE)
    (hg : item.grade = encodeGradeOpt g) (ha : item.attendance = encodeAttendance a)
    (hw : item.withheld = encodeWithheldOpt w)
    (hnew : item.registerNo ∉ regsOf (formatData data)) :
    formatData (data ++ [item]) = formatData data ++ [mkNewRecord item] ∧
    (mkNewRecord item).grades = [(jsToKey item.course, (specDerive g a w).toJs)] := by
  constructor
  · rw [formatData_append_single]
    exact formatStep_not_mem _ _ hnew
  · show [(jsToKey item.course, deriveOutcome item)] = _
    rw [deriveOutcome_typed item g a w hg ha hw]

theorem claim_C2_witness :
    formatData ([] ++
        [mkRow (.num 1) "C1" .null (.str "Present") (.str "With held for Malpractice")]) =
      formatData [] ++
        [mkNewRecord
          (mkRow (.num 1) "C1" .null (.str "Present") (.str "With held for Malpractice"))] ∧
    (mkNewRecord
        (mkRow (.num 1) "C1" .null (.str "Present") (.str "With held for Malpractice"))).grades =
      [(jsToKey
          (mkRow (.num 1) "C1" .null (.str "Present") (.str "With held for Malpractice")).course,
        (specDerive none AttendanceE.present (some WithheldE.malpractice)).toJs)] :=
  claim_C2_first_row_derivation_chain []
    (mkRow (.num 1) "C1" .null (.str "Present") (.str "With held for Malpractice"))
    none AttendanceE.present (some WithheldE.malpractice) rfl rfl rfl (by decide)

/-- C3: a row whose `registerNo` already has a record stores the row's
raw `grade` field verbatim under the row's course key (no derivation
rule), overwriting whatever was there. -/
theorem claim_C3_overwrite_stores_raw_grade (data : List ResultType)
    (item : ResultType) (h : item.registerNo ∈ regsOf (formatData data)) :
    ∃ p, (formatData (data ++ [item])).find?
        (fun f => f.registerNo == item.registerNo) = some p ∧
      lookupKey p.grades (jsToKey item.course) = some item.grade := by
  obtain ⟨pre, p, post, heq, hpr, hnpre⟩ := mem_regs_decomp _ _ h
  rw [formatData_append_single, heq, formatStep_update item pre p post hnpre hpr]
  refine ⟨{ p with grades := setKey p.grades (jsToKey item.course) item.grade },
    ?_, lookupKey_setKey _ _ _⟩
  exact find_reg_first item.registerNo pre _ post hnpre hpr

theorem claim_C3_witness :
    ∃ p, (formatData
        ([mkRow (.num 1) "C1" (.str "A") (.str "Present") .null] ++
          [mkRow (.num 1) "C1" .null (.str "Absent") .null])).find?
        (fun f => f.registerNo ==
          (mkRow (.num 1) "C1" .null (.str "Absent") .null).registerNo) = some p ∧
      lookupKey p.grades
        (jsToKey (mkRow (.num 1) "C1" .null (.str "Absent") .null).course) =
      some (mkRow (.num 1) "C1" .null (.str "Absent") .null).grade :=
  claim_C3_overwrite_stores_raw_grade
    [mkRow (.num 1) "C1" (.str "A") (.str "Present") .null]
    (mkRow (.num 1) "C1" .null (.str "Absent") .null) (by decide)

/-- C4: the key list of every output record's `grades` map is exactly the
distinct course keys appearing for that `registerNo` in the input, in
first-seen-per-student order (so no course is dropped). -/
theorem claim_C4_outcome_keys_complete (data : List ResultType) (p : FormattedType)
    (hp : p ∈ formatData data) :
    p.grades.map Prod.fst = courseKeysFor p.registerNo data :=
  (formatData_inv data).keys p hp

theorem claim_C4_witness :
    ({ registerNo := JsPrim.num 1, studentName := JsPrim.str "N",
       branch := JsPrim.str "CS", semester := JsPrim.num 1,
       examType := JsPrim.str "Regular",
       grades := [("X", JsPrim.null), ("Y", JsPrim.null)],
       withheld := JsPrim.null } : FormattedType).grades.map Prod.fst =
      courseKeysFor (JsPrim.num 1)
        [mkRow (.num 1) "X" .null .null .null, mkRow (.num 1) "Y" .null .null .null] :=
  claim_C4_outcome_keys_complete
    [mkRow (.num 1) "X" .null .null .null, mkRow (.num 1) "Y" .null .null .null]
    { registerNo := JsPrim.num 1, studentName := JsPrim.str "N",
      branch := JsPrim.str "CS", semester := JsPrim.num 1,
      examType := JsPrim.str "Regular",
      grades := [("X", JsPrim.null), ("Y", JsPrim.null)],
      withheld := JsPrim.null } (by decide)

/-- C5: `getAllCourses` returns the distinct course keys across all
records, each exactly once, in global first-seen order (students in
sequence order, each student's keys in insertion order); in particular
grades `[X,Y]` followed by `[Y,Z]` yields `[X,Y,Z]`. -/
theorem claim_C5_course_universe_first_seen (data : List FormattedType) :
    getAllCourses data =
      dedupFirst ((data.map (fun p => p.grades.map Prod.fst)).flatten) ∧
    (getAllCourses data).Nodup ∧
    getAllCourses
      [{ registerNo := JsPrim.num 1, studentName := JsPrim.str "A",
         branch := JsPrim.str "CS", semester := JsPrim.num 1,
         examType := JsPrim.str "Regular",
         grades := [("X", JsPrim.null), ("Y", JsPrim.null)],
         withheld := JsPrim.null },
       { registerNo := JsPrim.num 2, studentName := JsPrim.str "B",
         branch := JsPrim.str "CS", semester := JsPrim.num 1,
         examType := JsPrim.str "Regular",
         grades := [("Y", JsPrim.null), ("Z", JsPrim.null)],
         withheld := JsPrim.null }] = ["X", "Y", "Z"] := by
  have h : getAllCourses data =
      dedupFirst ((data.map (fun p => p.grades.map Prod.fst)).flatten) := by
    unfold getAllCourses
    rw [getAllCourses_fold, foldl_dedup_step]
    rfl
  refine ⟨h, ?_, by decide⟩
  rw [h]
  exact dedupFirst_nodup _

/-- C6 counterexample: a header line followed by a trailing newline has
only one non-empty line, yet `parseCsv` does not fail — the code counts
the empty string after the final newline as a line, so `allLines.length`
is 2 and the `< 2` check passes. -/
theorem claim_C6_counterexample :
    nonEmptyLineCount "Register No,Student Name\n" < 2 ∧
    parseCsv "Register No,Student Name\n" ≠ none := by decide

/-- C6 (amended): the parser fails with the "File is empty" error exactly
when splitting on CRLF/LF yields fewer than 2 lines *counting empty
lines*, equivalently exactly when the input contains no LF character at
all; on failure no text is handed to the CSV library (no records). -/
theorem claim_C6_empty_input_check (s : String) :
    (parseCsv s = none ↔ (jsSplitLines s).length < 2) ∧
    (parseCsv s = none ↔ '\n' ∉ s.data) := by
  have h1 : parseCsv s = none ↔ (jsSplitLines s).length < 2 := by
    unfold parseCsv
    by_cases h : (jsSplitLines s).length < 2
    · simp [h]
    · simp [h]
  refine ⟨h1, h1.trans ?_⟩
  constructor
  · intro h hn
    have h2 := splitCL_length_of_newline s.data hn
    unfold jsSplitLines at h
    rw [List.length_map] at h
    omega
  · intro h
    unfold jsSplitLines
    rw [splitCL_no_newline s.data h]
    simp

/-- C7: processing a row whose `registerNo` already has a record changes
only that record's `grades` entry for the row's course key — all other
records and all scalar fields are untouched (first part) — and every
output record's scalar fields (`registerNo`, `studentName`, `branch`,
`semester`, `examType`, `withheld`) are copies of the first input row
with that `registerNo` (second part). -/
theorem claim_C7_frame_and_first_seen_metadata :
    (∀ (item : ResultType) (pre : List FormattedType) (p : FormattedType)
        (post : List FormattedType),
        item.registerNo ∉ regsOf pre → p.registerNo = item.registerNo →
        formatStep item (pre ++ p :: post) =
          pre ++
            { p with
              grades := setKey p.grades (jsToKey item.course) item.grade } :: post) ∧
    (∀ (data : List ResultType) (q : FormattedType), q ∈ formatData data →
        ∃ item, firstRowFor data q.registerNo item ∧ metaFrom q item) := by
  constructor
  · exact formatStep_update
  · intro data q hq
    exact (formatData_inv data).meta q hq

theorem claim_C7_witness :
    formatStep (mkRow (.num 1) "Y" (.str "B") .null .null)
        ([] ++ mkNewRecord (mkRow (.num 1) "X" (.str "A") .null .null) :: []) =
      [] ++
        { mkNewRecord (mkRow (.num 1) "X" (.str "A") .null .null) with
            grades := setKey
              (mkNewRecord (mkRow (.num 1) "X" (.str "A") .null .null)).grades
              (jsToKey (mkRow (.num 1) "Y" (.str "B") .null .null).course)
              (mkRow (.num 1) "Y" (.str "B") .null .null).grade } :: [] :=
  claim_C7_frame_and_first_seen_metadata.1
    (mkRow (.num 1) "Y" (.str "B") .null .null) []
    (mkNewRecord (mkRow (.num 1) "X" (.str "A") .null .null)) []
    (by decide) (by decide)

/-- C8: the first (header) line alone has its semicolons replaced by
commas, data lines are passed through untouched, so a semicolon-header
input yields exactly the same text for the CSV library — hence the same
records — as the corresponding comma-header input. -/
theorem claim_C8_header_semicolon_normalisation (h : String) (rs : List String)
    (hne : rs ≠ []) (hclean : ∀ l ∈ h :: rs, '\n' ∉ l.data ∧ '\r' ∉ l.data) :
    parseCsv (joinLines (h :: rs)) = some (joinLines (replaceSemi h :: rs)) ∧
    parseCsv (joinLines (replaceSemi h :: rs)) =
      some (joinLines (replaceSemi h :: rs)) := by
  have hclean2 : ∀ l ∈ replaceSemi h :: rs, '\n' ∉ l.data ∧ '\r' ∉ l.data := by
    intro l hl
    rcases List.mem_cons.mp hl with rfl | hl
    · have hh := hclean h (List.mem_cons_self _ _)
      exact ⟨replaceSemiC_not_mem _ _ (by decide) hh.1,
        replaceSemiC_not_mem _ _ (by decide) hh.2⟩
    · exact hclean l (List.mem_cons_of_mem _ hl)
  rcases rs with _ | ⟨a, as⟩
  · exact absurd rfl hne
  · have hsplit : jsSplitLines (joinLines (h :: a :: as)) = h :: a :: as :=
      jsSplitLines_joinLines _ (by simp) hclean
    have hsplit2 :
        jsSplitLines (joinLines (replaceSemi h :: a :: as)) =
          replaceSemi h :: a :: as :=
      jsSplitLines_joinLines _ (by simp) hclean2
    refine ⟨parseCsv_of_lines _ _ _ _ hsplit, ?_⟩
    have h2 := parseCsv_of_lines _ _ _ _ hsplit2
    rw [replaceSemi_idem] at h2
    exact h2

theorem claim_C8_witness :
    parseCsv (joinLines ["Register No;Grade", "1,A"]) =
      some (joinLines (replaceSemi "Register No;Grade" :: ["1,A"])) :=
  (claim_C8_header_semicolon_normalisation "Register No;Grade" ["1,A"]
    (by decide) (by decide)).1

/-- C9: `formatData` is a total function on arbitrary dynamic inputs —
every row is consumed (the output has one record per distinct
`registerNo`, however malformed the field values), and every outcome
value stored in the output is either some row's raw `grade` value or the
derivation of some row; bad data can only surface as such values. -/
theorem claim_C9_total_no_failure (data : List ResultType) :
    (formatData data).length = (dedupFirst (data.map (fun i => i.registerNo))).length ∧
    ∀ p ∈ formatData data, ∀ kv ∈ p.grades,
      (∃ item ∈ data, kv.2 = item.grade) ∨ (∃ item ∈ data, kv.2 = deriveOutcome item) := by
  constructor
  · have h : (formatData data).map (fun f => f.registerNo) =
        dedupFirst (data.map (fun i => i.registerNo)) := (formatData_inv data).regs
    calc (formatData data).length
        = ((formatData data).map (fun f => f.registerNo)).length :=
          (List.length_map _ _).symm
      _ = _ := by rw [h]
  · exact (formatData_inv data).vals

theorem claim_C9_witness :
    (∃ item ∈ [mkRow (.num 1) "C1" .null .null .null],
        (("C1", JsPrim.null) : String × JsPrim).2 = item.grade) ∨
    (∃ item ∈ [mkRow (.num 1) "C1" .null .null .null],
        (("C1", JsPrim.null) : String × JsPrim).2 = deriveOutcome item) :=
  (claim_C9_total_no_failure [mkRow (.num 1) "C1" .null .null .null]).2
    (mkNewRecord (mkRow (.num 1) "C1" .null .null .null)) (by decide)
    ("C1", JsPrim.null) (by decide)

/-- C10: `formatData` merges two rows into one record exactly when their
`registerNo` values are strictly (`===`) equal; values of different
dynamic type — such as the number 1 and the string "1" — are never
strictly equal, so such rows yield separate records. -/
theorem claim_C10_strict_equality_grouping :
    (∀ (data : List ResultType) (item : ResultType),
      (formatData (data ++ [item])).length =
        if item.registerNo ∈ data.map (fun i => i.registerNo)
        then (formatData data).length else (formatData data).length + 1) ∧
    (∀ i₁ i₂ : ResultType,
      regsOf (formatData [i₁, i₂]) =
        if i₁.registerNo = i₂.registerNo then [i₁.registerNo]
        else [i₁.registerNo, i₂.registerNo]) ∧
    regsOf (formatData
      [mkRow (.num 1) "X" .null .null .null,
       mkRow (.str "1") "X" .null .null .null]) = [JsPrim.num 1, JsPrim.str "1"] := by
  refine ⟨?_, ?_, by decide⟩
  · intro data item
    rw [formatData_append_single]
    have hregs : (formatData data).map (fun f => f.registerNo) =
        dedupFirst (data.map (fun i => i.registerNo)) := (formatData_inv data).regs
    by_cases h : item.registerNo ∈ data.map (fun i => i.registerNo)
    · rw [if_pos h]
      have hmem : item.registerNo ∈ regsOf (formatData data) := by
        show item.registerNo ∈ (formatData data).map (fun f => f.registerNo)
        rw [hregs, mem_dedupFirst]
        exact h
      obtain ⟨pre, p, post, heq, hpr, hnpre⟩ := mem_regs_decomp _ _ hmem
      rw [heq, formatStep_update item pre p post hnpre hpr]
      simp
    · rw [if_neg h]
      have hnm : item.registerNo ∉ regsOf (formatData data) := by
        intro hc
        apply h
        have hmap : item.registerNo ∈ (formatData data).map (fun f => f.registerNo) := hc
        rw [hregs, mem_dedupFirst] at hmap
        exact hmap
      rw [formatStep_not_mem _ _ hnm]
      simp
  · intro i₁ i₂
    by_cases h : i₁.registerNo = i₂.registerNo
    · rw [if_pos h]
      show regsOf (formatStep i₂ [mkNewRecord i₁]) = _
      unfold formatStep
      rw [if_pos (show (mkNewRecord i₁).registerNo = i₂.registerNo from h)]
      rfl
    · rw [if_neg h]
      show regsOf (formatStep i₂ [mkNewRecord i₁]) = _
      unfold formatStep
      rw [if_neg (show ¬(mkNewRecord i₁).registerNo = i₂.registerNo from h)]
      rfl
